import Mathlib

/-!
Verification of the es-sector-updater pipeline (src/main.rs).

The program is shallowly embedded: strings are lists of characters,
filesystem trees are explicit data, the regex rewrites are modelled by an
executable leftmost-first replace-all driven by a matcher function that
mirrors the concrete pattern of each `Regex` in the source, and the
control flow of `work_fir` relevant to the scratch directory is modelled
as a step sequence with Rust drop semantics for `TempDir`.
-/

namespace ESSU

/-- Characters of a string literal; all string data in the model is `List Char`. -/
def strL (s : String) : List Char := s.toList

/-- Boolean test that `p` is a leading segment of `s` (Rust `starts_with`). -/
def hasPre : List Char → List Char → Bool
  | [], _ => true
  | _ :: _, [] => false
  | a :: as, b :: bs => a == b && hasPre as bs

/-- Boolean test that `p` is a trailing segment of `s` (Rust `ends_with`). -/
def hasSuf (p s : List Char) : Bool := hasPre p.reverse s.reverse

/-- Boolean test that `pat` occurs contiguously inside `s` (Rust `str::contains`). -/
def containsSub : List Char → List Char → Bool
  | [], pat => hasPre pat []
  | c :: rest, pat => hasPre pat (c :: rest) || containsSub rest pat

/-- True when a character may be consumed by `.` in the regexes (anything except a newline). -/
def nlFree (c : Char) : Bool := c != '\n'

/-! ### LinkResolver (`is_correct_link`, `get_sector_link`, src lines 94-111) -/

/-- `fn is_correct_link(link, package_name, format) -> bool`:
`link.contains(package_name) && link.ends_with(format)`. -/
def is_correct_link (link package_name format : List Char) : Bool :=
  containsSub link package_name && hasSuf format link

/-- Outcome of `get_sector_link` once the page's `href` values are collected.
`errNotFound` is never produced by the code; it is here so the specified
behaviour (returning a NotFound error value) can be stated and compared. -/
inductive LinkResult where
  | found (url : List Char)
  | errNotFound
  | panicked
deriving DecidableEq

/-- `get_sector_link` after the HTML fetch: filter the collected `href`s with
`is_correct_link(_, package_name, "zip")`, take `.last()` of the iterator and
`.unwrap()` it.  `unwrap` of `None` is a panic, modelled by `panicked`. -/
def get_sector_link_run (hrefs : List (List Char)) (package_name : List Char) : LinkResult :=
  match (hrefs.filter (fun x => is_correct_link x package_name (strL "zip"))).getLast? with
  | some u => .found u
  | none => .panicked

/-! ### Scratch-directory lifecycle of `work_fir` (src lines 46-92)

`work_fir` creates the scratch directory with `tempdir()` (an RAII guard that
removes the directory when dropped) and later calls `tmp_dir.into_path()`,
which disarms the guard and hands out a plain `PathBuf`; no
`remove_dir_all` appears anywhere afterwards.  The model lists the fallible
steps of `work_fir` in source order and tracks whether the scratch
directory exists and whether the guard is armed. -/

inductive StepKind where
  | getLink        -- get_sector_link(...)? (line 54)
  | createTmpDir   -- Builder::new().tempdir()? (line 56)
  | buildClient    -- Client::builder()...build()? (line 63)
  | sendRequest    -- client.get(file_url).send()? (line 64)
  | openFile       -- OpenOptions::new()...open(...)? (line 71)
  | readBytes      -- response.bytes()? (line 72)
  | writeArchive   -- io::copy(&mut content, &mut file)? (line 73)
  | zipOpen        -- ZipArchive::new(file)? (line 75)
  | unzip          -- unzip_archive(...)? (line 76)
  | removeZip      -- fs::remove_file(file_name)? (line 78)
  | intoPath       -- tmp_dir.into_path() (line 79): disarms the TempDir guard
  | copyFiles      -- copy_files(...)? (line 80)
  | sectorName     -- get_sector_file_name(...).unwrap() (line 82)
  | changePrf      -- change_prf_sectors(...)? (line 83)
  | clearAsr       -- clear_asr(...)? (line 87)
  | copyNav        -- copy_navdata(...)? (line 90)

structure ScratchState where
  tmpExists : Bool
  guardActive : Bool

def stepEffect (k : StepKind) (st : ScratchState) : ScratchState :=
  match k with
  | .createTmpDir => { tmpExists := true, guardActive := true }
  | .intoPath => { st with guardActive := false }
  | _ => st

/-- The fallible/relevant steps of `work_fir`, in source order. -/
def work_fir_steps : List StepKind :=
  [.getLink, .createTmpDir, .buildClient, .sendRequest, .openFile, .readBytes,
   .writeArchive, .zipOpen, .unzip, .removeZip, .intoPath, .copyFiles,
   .sectorName, .changePrf, .clearAsr, .copyNav]

/-- Rust drop semantics at scope exit (normal return, `?` early return, or
unwind): an armed `TempDir` guard removes the directory. -/
def finalizeDrop (st : ScratchState) : ScratchState :=
  if st.guardActive then { tmpExists := false, guardActive := false } else st

/-- State of the scratch directory when the region's run ends.  `failAt (some n)`
means step `n` (0-based in `work_fir_steps`) returned an error or panicked, so
exactly the steps before it executed; `none` is the success path. -/
def scratch_at_exit (failAt : Option Nat) : ScratchState :=
  finalizeDrop
    ((work_fir_steps.take (match failAt with | some n => n | none => work_fir_steps.length)).foldl
      (fun st k => stepEffect k st) ⟨false, false⟩)

/-! ### Filesystem model shared by extraction and the copy passes -/

/-- A file or directory name. -/
abbrev FName := List Char

/-- An absolute path, as the list of names from the root. -/
abbrev FPath := List FName

/-- All leading segments of a path, the path itself included. -/
def prefixesP : FPath → List FPath
  | [] => [[]]
  | x :: xs => [] :: (prefixesP xs).map (fun q => x :: q)

/-- Mutable filesystem state: the set of existing directories (as a list of
paths) and the files (path with byte content). -/
structure FS where
  dirs : List FPath
  files : List (FPath × List Nat)

/-- `fs::create_dir_all(p)`: the path and every missing ancestor become directories. -/
def FS.createDirAll (fs : FS) (p : FPath) : FS :=
  { fs with dirs := prefixesP p ++ fs.dirs }

/-- The copy-loop body for one file: `if !parent.exists() { create_dir_all(parent) }`
then `File::create` + `io::copy`, which truncates and overwrites any file
already at the path. -/
def FS.writeFile (fs : FS) (p : FPath) (content : List Nat) : FS :=
  let fs1 := if fs.dirs.contains p.dropLast then fs else fs.createDirAll p.dropLast
  { fs1 with files := (p, content) :: fs1.files.filter (fun e => !(e.1 == p)) }

/-! ### ArchiveExtractor (`unzip_archive`, src lines 168-191) -/

/-- One archive entry: its name as stored in the zip (directories end in `/`)
and its byte content. -/
structure ZipEntry where
  name : List Char
  content : List Nat

/-- Split a zip entry name on `/` into components. -/
def splitSlashGo : List Char → List Char → List (List Char)
  | [], cur => [cur.reverse]
  | c :: rest, cur =>
    if c = '/' then cur.reverse :: splitSlashGo rest [] else splitSlashGo rest (c :: cur)

def splitSlash (s : List Char) : List (List Char) := splitSlashGo s []

/-- Component scan of the zip crate's `enclosed_name`: empty components and
`.` are skipped, `..` pops one accepted component and is rejected when there
is nothing to pop (the depth counter would go negative), anything else is
accepted.  Returns the resolved components, which is what joining the
returned path onto the destination denotes on the filesystem. -/
def sanitizeGo : List (List Char) → List (List Char) → Option (List (List Char))
  | [], acc => some acc.reverse
  | c :: rest, acc =>
    if c = [] || c = strL "." then sanitizeGo rest acc
    else if c = strL ".." then
      match acc with
      | [] => none
      | _ :: acc2 => sanitizeGo rest acc2
    else sanitizeGo rest (c :: acc)

/-- `ZipFile::enclosed_name`: `None` for an absolute path or a path whose
parent-directory segments would climb above the start, otherwise the safe
relative path.  (The crate also rejects NUL bytes and Windows prefixes,
which the `List Char`/Unix path model cannot express.) -/
def enclosed_name (name : List Char) : Option (List (List Char)) :=
  if name.head? = some '/' then none
  else sanitizeGo (splitSlash name) []

/-- `unzip_archive`: for every entry, skip it when `enclosed_name` rejects it;
otherwise join onto the scratch directory and either `create_dir_all` (names
ending in `/`) or create parent directories and write the file bytes. -/
def unzip_archive (dest : FPath) (entries : List ZipEntry) (fs : FS) : FS :=
  entries.foldl
    (fun acc e =>
      match enclosed_name e.name with
      | none => acc
      | some comps =>
        if e.name.getLast? = some '/' then acc.createDirAll (dest ++ comps)
        else acc.writeFile (dest ++ comps) e.content)
    fs

/-- The filesystem `fs` extends `fs0` only below `dest`: every directory and
file not already in `fs0` has `dest` as a leading segment of its path. -/
def SafeExt (fs0 : FS) (dest : FPath) (fs : FS) : Prop :=
  (∀ p ∈ fs.dirs, p ∈ fs0.dirs ∨ dest <+: p) ∧
  (∀ e ∈ fs.files, e ∈ fs0.files ∨ dest <+: e.1)

/-! ### Installer (`copy_files` lines 193-214, `copy_navdata` lines 275-298) -/

/-- A directory entry as surfaced by one `fs::read_dir` call: name plus
whether it is a directory (with no access to its children) or a file (with
its bytes). -/
inductive DirEntry where
  | dirE (name : FName)
  | fileE (name : FName) (content : List Nat)
deriving DecidableEq

def DirEntry.entryName : DirEntry → FName
  | .dirE n => n
  | .fileE n _ => n

/-- Loop body shared verbatim by the two copy passes: a directory entry gets
`create_dir_all(dest.join(name))`; a file entry gets parent creation plus an
overwriting byte copy to `dest.join(name)`. -/
def copyStep (destRoot : FPath) (acc : FS) (e : DirEntry) : FS :=
  match e with
  | .dirE name => acc.createDirAll (destRoot ++ [name])
  | .fileE name content => acc.writeFile (destRoot ++ [name]) content

/-- `copy_files(es_path, tmp_path)`: iterate `read_dir(tmp_path)` once (no
recursion into subdirectories) and run the loop body with `es_path` as the
destination root. -/
def copy_files (es_path : FPath) (listing : List DirEntry) (fs : FS) : FS :=
  listing.foldl (copyStep es_path) fs

/-- `copy_navdata(es_path, tmp_navdata)`: the same single-level loop with
`es_path.join("NavData")` as the destination root. -/
def copy_navdata (es_path : FPath) (listing : List DirEntry) (fs : FS) : FS :=
  listing.foldl (copyStep (es_path ++ [strL "NavData"])) fs

/-- A source directory tree, used to relate a top-level `read_dir` listing to
the entries nested below it. -/
inductive FsTree where
  | file (content : List Nat)
  | dir (children : List (FName × FsTree))

/-- The `read_dir` view of a tree's children: names plus kind, directory
contents invisible. -/
def topListing (children : List (FName × FsTree)) : List DirEntry :=
  children.map (fun e =>
    match e.2 with
    | .file c => .fileE e.1 c
    | .dir _ => .dirE e.1)

/-- Whether the tree holds a file with the given bytes at the given nested path. -/
def treeHasFileAt : FsTree → FPath → List Nat → Bool
  | .file c, [], content => c == content
  | .file _, _ :: _, _ => false
  | .dir _, [], _ => false
  | .dir children, n :: rest, content =>
    children.any (fun e => e.1 == n && treeHasFileAt e.2 rest content)

/-! ### Sector file discovery (`get_sector_file_name`, src lines 216-227) -/

/-- `get_sector_file_name`: fold over the `read_dir` names, overwriting the
result with every name that ends in `.sct` — so the last such name in
iteration order wins, and several `.sct` files go unnoticed. -/
def get_sector_file_name (names : List FName) : Option FName :=
  names.foldl (fun rv fname => if hasSuf (strL ".sct") fname then some fname else rv) none

/-- The use site `get_sector_file_name(&tmp_path).unwrap()` in `work_fir`
(line 82): `None` panics, `Some` lets the pipeline proceed with the name. -/
inductive SectorNameOutcome where
  | proceeds (name : FName)
  | panicked
deriving DecidableEq

def sector_file_step (names : List FName) : SectorNameOutcome :=
  match get_sector_file_name names with
  | some n => .proceeds n
  | none => .panicked

/-! ### The two regex rewrites (`change_prf_sectors` lines 229-252, `clear_asr` lines 254-273)

Each `Regex::replace_all` is modelled by `repAll`: scan left to right, and at
each position either the matcher recognises a leftmost match — the pattern
consumed there is replaced and scanning resumes after it (the replacement is
not rescanned) — or the scan advances one character.  The matcher of each
pattern is spelled out from its regex below. -/

/-- Generic fuelled replace-all; `m s` returns the remainder of `s` after a
match when the pattern matches at the head of `s`. -/
def repAllGo (m : List Char → Option (List Char)) (repl : List Char) : Nat → List Char → List Char
  | 0, s => s
  | _ + 1, [] => []
  | fuel + 1, c :: rest =>
    match m (c :: rest) with
    | some rem => repl ++ repAllGo m repl fuel rem
    | none => c :: repAllGo m repl fuel rest

/-- Replace every match of `m` in `s` by `repl`, leftmost-first.  The fuel
`s.length` is enough because every match consumes at least one character. -/
def repAll (m : List Char → Option (List Char)) (repl : List Char) (s : List Char) : List Char :=
  repAllGo m repl s.length s

/-- The literal head of the profile pattern `Settings\tsector.*\n`. -/
def prfLit : List Char := strL "Settings\tsector"

/-- Head matcher of `Settings\tsector.*\n`: the literal, then `.*` — which
cannot cross a newline — then `\n`; the match therefore runs to the first
newline after the literal, and fails when no newline follows. -/
def prfMatch (s : List Char) : Option (List Char) :=
  if hasPre prfLit s then
    match (s.drop prfLit.length).dropWhile nlFree with
    | [] => none
    | _ :: rem => some rem
  else none

/-- `format!("Settings\tsector\t\\{name}\n")` of src line 236, written with
the braces expanded. -/
def prfRepl (name : List Char) : List Char :=
  strL "Settings\tsector\t\\" ++ name ++ strL "\n"

/-- Body of `change_prf_sectors` for one selected profile file's contents:
`prf_regex.replace_all(contents, sector_string)`.  (`$`-expansion of the
replacement is not modelled; sector file names contain no `$`.) -/
def change_prf_sectors (name : List Char) (contents : List Char) : List Char :=
  repAll prfMatch (prfRepl name) contents

/-- File selection of `change_prf_sectors`:
`fname.ends_with(".prf") && fname.starts_with(prf_prefix)`. -/
def prf_file_selected (fname pfx : List Char) : Bool :=
  hasSuf (strL ".prf") fname && hasPre pfx fname

def sfLit : List Char := strL "SECTORFILE:"

def stLit : List Char := strL "SECTORTITLE:"

/-- Head matcher of `SECTORFILE:.*\nSECTORTITLE:.*\n`: each `.*` runs to the
first newline of its line, and `SECTORTITLE:` must start immediately after
the first newline; with no viable backtracking the whole match fails
otherwise. -/
def asrMatch (s : List Char) : Option (List Char) :=
  if hasPre sfLit s then
    match (s.drop sfLit.length).dropWhile nlFree with
    | [] => none
    | _ :: after1 =>
      if hasPre stLit after1 then
        match (after1.drop stLit.length).dropWhile nlFree with
        | [] => none
        | _ :: rem => some rem
      else none
  else none

/-- The replacement string `"SECTORFILE:\nSECTORTITLE:\n"` of src line 264. -/
def asrRepl : List Char := strL "SECTORFILE:\nSECTORTITLE:\n"

/-- Body of `clear_asr` for one selected session file's contents:
`asr_regex.replace_all(contents, "SECTORFILE:\nSECTORTITLE:\n")`. -/
def clear_asr (contents : List Char) : List Char :=
  repAll asrMatch asrRepl contents

/-- File selection of `clear_asr`: `fname.ends_with(".asr")`. -/
def asr_file_selected (fname : List Char) : Bool := hasSuf (strL ".asr") fname

/-- No position of `s` (head of any suffix) starts a match of `m`. -/
def NoMatchUpto (m : List Char → Option (List Char)) (s : List Char) : Prop :=
  ∀ i, i ≤ s.length → m (s.drop i) = none

instance (m : List Char → Option (List Char)) (s : List Char) : Decidable (NoMatchUpto m s) :=
  inferInstanceAs (Decidable (∀ i, i ≤ s.length → m (s.drop i) = none))

/-- Strings fixed by `repAll m repl`: built from characters that start no
match and from whole copies of the replacement. -/
inductive Fix (m : List Char → Option (List Char)) (repl : List Char) : List Char → Prop where
  | nil : Fix m repl []
  | rep : ∀ t, Fix m repl t → Fix m repl (repl ++ t)
  | cons : ∀ c rest, m (c :: rest) = none → Fix m repl rest → Fix m repl (c :: rest)

end ESSU

namespace ESSU

/-! ## Basic lemmas about the string primitives -/

theorem hasPre_iff (p s : List Char) : hasPre p s = true ↔ ∃ t, p ++ t = s := by
  induction p generalizing s with
  | nil => exact ⟨fun _ => ⟨s, rfl⟩, fun _ => rfl⟩
  | cons a as ih =>
    cases s with
    | nil =>
      simp only [hasPre, List.cons_append]
      constructor
      · intro h; exact absurd h (by simp)
      · rintro ⟨t, h⟩; exact absurd h (by simp)
    | cons b bs =>
      simp only [hasPre, Bool.and_eq_true, beq_iff_eq, ih, List.cons_append]
      constructor
      · rintro ⟨rfl, t, rfl⟩; exact ⟨t, rfl⟩
      · rintro ⟨t, h⟩
        injection h with h1 h2
        exact ⟨h1, t, h2⟩

theorem hasPre_append (p t : List Char) : hasPre p (p ++ t) = true :=
  (hasPre_iff p (p ++ t)).mpr ⟨t, rfl⟩

theorem dw_head {p : Char → Bool} {l r : List Char} {c : Char}
    (h : l.dropWhile p = c :: r) : p c = false := by
  induction l with
  | nil => simp [List.dropWhile] at h
  | cons x xs ih =>
    rw [List.dropWhile_cons] at h
    cases hx : p x with
    | true => rw [hx] at h; simp at h; exact ih h
    | false =>
      rw [hx] at h; simp at h
      rw [← h.1]; exact hx

theorem dw_all {p : Char → Bool} {a : List Char} (b : List Char)
    (h : ∀ x ∈ a, p x = true) : (a ++ b).dropWhile p = b.dropWhile p := by
  induction a with
  | nil => rfl
  | cons x xs ih =>
    rw [List.cons_append, List.dropWhile_cons, h x (by simp)]
    simp only [if_true]
    exact ih (fun y hy => h y (by simp [hy]))

theorem dw_first {p : Char → Bool} {a : List Char} {c : Char} {r : List Char}
    (h : a.dropWhile p = c :: r) (b : List Char) :
    (a ++ b).dropWhile p = c :: (r ++ b) := by
  induction a with
  | nil => simp [List.dropWhile] at h
  | cons x xs ih =>
    rw [List.dropWhile_cons] at h
    rw [List.cons_append, List.dropWhile_cons]
    cases hx : p x with
    | true => rw [hx] at h; simp at h; simp only [if_true]; exact ih h
    | false =>
      rw [hx] at h; simp at h
      simp [h.1, h.2]

theorem nlFree_false {c : Char} : nlFree c = false ↔ c = '\n' := by
  simp [nlFree]

theorem mem_nl_dw {l : List Char} (h : '\n' ∈ l) :
    ∃ r, l.dropWhile nlFree = '\n' :: r := by
  induction l with
  | nil => simp at h
  | cons x xs ih =>
    rw [List.dropWhile_cons]
    cases hx : nlFree x with
    | false =>
      rw [nlFree_false] at hx
      exact ⟨xs, by simp [hx]⟩
    | true =>
      have hxne : x ≠ '\n' := by
        intro hxe; rw [hxe] at hx; simp [nlFree] at hx
      have : '\n' ∈ xs := by
        cases h with
        | head => exact absurd rfl hxne
        | tail _ h2 => exact h2
      obtain ⟨r, hr⟩ := ih this
      exact ⟨r, by simp only [if_true]; exact hr⟩

theorem dw_nil {p : Char → Bool} {l : List Char} :
    l.dropWhile p = [] ↔ ∀ x ∈ l, p x = true := by
  induction l with
  | nil => simp
  | cons x xs ih =>
    rw [List.dropWhile_cons]
    cases hx : p x with
    | true => simp [hx, ih]
    | false => simp [hx]

theorem dw_mem {p : Char → Bool} {l : List Char} {x : Char}
    (h : x ∈ l.dropWhile p) : x ∈ l := by
  induction l with
  | nil => simp [List.dropWhile] at h
  | cons y ys ih =>
    rw [List.dropWhile_cons] at h
    cases hy : p y with
    | true => rw [hy] at h; simp at h; exact List.mem_cons_of_mem y (ih h)
    | false => rw [hy] at h; simpa using h

/-! ## Take/drop over appends -/

theorem take_app_le {α : Type} (a b : List α) {n : Nat} (h : n ≤ a.length) :
    (a ++ b).take n = a.take n := by
  rw [List.take_append_eq_append_take, Nat.sub_eq_zero_of_le h, List.take_zero, List.append_nil]

theorem drop_app_le {α : Type} (a b : List α) {n : Nat} (h : n ≤ a.length) :
    (a ++ b).drop n = a.drop n ++ b := by
  rw [List.drop_append_eq_append_drop, Nat.sub_eq_zero_of_le h, List.drop_zero]

theorem take_app_ge {α : Type} (a b : List α) {n : Nat} (h : a.length ≤ n) :
    (a ++ b).take n = a ++ b.take (n - a.length) := by
  rw [List.take_append_eq_append_take, List.take_of_length_le h]

theorem drop_app_ge {α : Type} (a b : List α) {n : Nat} (h : a.length ≤ n) :
    (a ++ b).drop n = b.drop (n - a.length) := by
  rw [List.drop_append_eq_append_drop, List.drop_eq_nil_of_le h, List.nil_append]

/-! ## Generic facts about `repAll` -/

section RepAllFacts

variable (m : List Char → Option (List Char)) (repl : List Char)

theorem repAllGo_fuel (hc : ∀ s rem, m s = some rem → rem.length < s.length) :
    ∀ f1 f2 s, s.length ≤ f1 → s.length ≤ f2 →
      repAllGo m repl f1 s = repAllGo m repl f2 s := by
  intro f1
  induction f1 with
  | zero =>
    intro f2 s h1 _
    have hs : s = [] := List.eq_nil_of_length_eq_zero (Nat.le_zero.mp h1)
    subst hs
    cases f2 <;> rfl
  | succ f ih =>
    intro f2 s h1 h2
    cases s with
    | nil => cases f2 <;> rfl
    | cons c rest =>
      obtain ⟨f2', rfl⟩ : ∃ f2', f2 = f2' + 1 := by
        cases f2 with
        | zero => simp at h2
        | succ k => exact ⟨k, rfl⟩
      cases hm : m (c :: rest) with
      | some rem =>
        have hlt := hc _ _ hm
        simp only [List.length_cons] at h1 h2 hlt
        simp only [repAllGo, hm]
        rw [ih f2' rem (by omega) (by omega)]
      | none =>
        simp only [List.length_cons] at h1 h2
        simp only [repAllGo, hm]
        rw [ih f2' rest (by omega) (by omega)]

theorem repAll_cons_some (hc : ∀ s rem, m s = some rem → rem.length < s.length)
    {c : Char} {rest rem : List Char} (hm : m (c :: rest) = some rem) :
    repAll m repl (c :: rest) = repl ++ repAll m repl rem := by
  have hlt := hc _ _ hm
  simp only [List.length_cons] at hlt
  unfold repAll
  simp only [List.length_cons, repAllGo, hm]
  rw [repAllGo_fuel m repl hc rest.length rem.length rem (by omega) (by omega)]

theorem repAll_cons_none {c : Char} {rest : List Char} (hm : m (c :: rest) = none) :
    repAll m repl (c :: rest) = c :: repAll m repl rest := by
  unfold repAll
  simp only [List.length_cons, repAllGo, hm]

theorem Fix_fixed (hc : ∀ s rem, m s = some rem → rem.length < s.length)
    (ha : ∀ t, m (repl ++ t) = some t) {s : List Char} (h : Fix m repl s) :
    repAll m repl s = s := by
  induction h with
  | nil => rfl
  | rep t _ iht =>
    have hne : repl ≠ [] := by
      intro h0
      have hl := hc _ _ (ha t)
      rw [h0, List.nil_append] at hl
      exact Nat.lt_irrefl _ hl
    obtain ⟨r0, rtl, hr⟩ := List.exists_cons_of_ne_nil hne
    have hm : m (r0 :: (rtl ++ t)) = some t := by
      have := ha t
      rwa [hr, List.cons_append] at this
    have harg : repl ++ t = r0 :: (rtl ++ t) := by rw [hr, List.cons_append]
    have h2 : repAll m repl (repl ++ t) = repl ++ repAll m repl t := by
      rw [harg, repAll_cons_some m repl hc hm]
    rw [h2, iht]
  | cons c rest hm _ ih =>
    rw [repAll_cons_none m repl hm, ih]

theorem repAll_decomp (hc : ∀ s rem, m s = some rem → rem.length < s.length)
    (s : List Char) :
    repAll m repl s = s ∨
      ∃ a v rem, s = a ++ v ∧ m v = some rem ∧
        repAll m repl s = a ++ (repl ++ repAll m repl rem) := by
  induction s with
  | nil => left; rfl
  | cons c rest ih =>
    cases hm : m (c :: rest) with
    | some rem =>
      right
      exact ⟨[], c :: rest, rem, rfl, hm, by
        rw [repAll_cons_some m repl hc hm, List.nil_append]⟩
    | none =>
      cases ih with
      | inl h => left; rw [repAll_cons_none m repl hm, h]
      | inr h =>
        obtain ⟨a, v, rem, he, hmv, hr⟩ := h
        right
        refine ⟨c :: a, v, rem, by rw [he, List.cons_append], hmv, ?_⟩
        rw [repAll_cons_none m repl hm, hr, List.cons_append]

theorem Fix_repAll (hc : ∀ s rem, m s = some rem → rem.length < s.length)
    (hd : ∀ c a v rem t, m (c :: (a ++ v)) = none → m v = some rem →
      m (c :: (a ++ (repl ++ t))) = none) :
    ∀ n s, s.length ≤ n → Fix m repl (repAll m repl s) := by
  intro n
  induction n with
  | zero =>
    intro s hs
    have : s = [] := List.eq_nil_of_length_eq_zero (Nat.le_zero.mp hs)
    subst this
    exact Fix.nil
  | succ n ih =>
    intro s hs
    cases s with
    | nil => exact Fix.nil
    | cons c rest =>
      simp only [List.length_cons] at hs
      cases hm : m (c :: rest) with
      | some rem =>
        rw [repAll_cons_some m repl hc hm]
        have hlt := hc _ _ hm
        simp only [List.length_cons] at hlt
        exact Fix.rep _ (ih rem (by omega))
      | none =>
        rw [repAll_cons_none m repl hm]
        have hfix := ih rest (by omega)
        have hnone : m (c :: repAll m repl rest) = none := by
          cases repAll_decomp m repl hc rest with
          | inl h => rw [h]; exact hm
          | inr h =>
            obtain ⟨a, v, rem, he, hmv, hr⟩ := h
            rw [hr]
            exact hd c a v rem (repAll m repl rem) (he ▸ hm) hmv
        exact Fix.cons c _ hnone hfix

theorem repAll_idem (hc : ∀ s rem, m s = some rem → rem.length < s.length)
    (ha : ∀ t, m (repl ++ t) = some t)
    (hd : ∀ c a v rem t, m (c :: (a ++ v)) = none → m v = some rem →
      m (c :: (a ++ (repl ++ t))) = none)
    (s : List Char) :
    repAll m repl (repAll m repl s) = repAll m repl s :=
  Fix_fixed m repl hc ha (Fix_repAll m repl hc hd s.length s Nat.le.refl)

theorem repAll_noMatch {mm : List Char → Option (List Char)} {rp s : List Char}
    (h : NoMatchUpto mm s) : repAll mm rp s = s := by
  induction s with
  | nil => rfl
  | cons c rest ih =>
    have h0 : mm (c :: rest) = none := by
      have := h 0 (Nat.zero_le _)
      simpa using this
    rw [repAll_cons_none mm rp h0]
    rw [ih (fun i hi => by
      have := h (i + 1) (by simpa using Nat.succ_le_succ hi)
      simpa using this)]

end RepAllFacts

/-! ## Instance facts for the profile rewrite `Settings\tsector.*\n` -/

theorem app_left_cancel {α : Type} {a b c : List α} (h : a ++ b = a ++ c) : b = c := by
  have h2 := congrArg (List.drop a.length) h
  simpa [List.drop_left] using h2

theorem split_of_app_eq {α : Type} {x A lit w : List α}
    (h : x ++ A = lit ++ w) (hlen : lit.length ≤ x.length) :
    ∃ D, x = lit ++ D ∧ w = D ++ A := by
  refine ⟨x.drop lit.length, ?_, ?_⟩
  · have ht : x.take lit.length = lit := by
      have h2 := congrArg (List.take lit.length) h
      rw [take_app_le x A hlen, List.take_left] at h2
      exact h2
    conv_lhs => rw [← List.take_append_drop lit.length x]
    rw [ht]
  · have h2 := congrArg (List.drop lit.length) h
    rw [drop_app_le x A hlen, List.drop_left] at h2
    exact h2.symm

theorem short_head_of_app_eq {α : Type} {x A lit w : List α}
    (h : x ++ A = lit ++ w) (hlt : x.length < lit.length) :
    A = lit.drop x.length ++ w := by
  have h2 := congrArg (List.drop x.length) h
  rw [List.drop_left, drop_app_le lit w (Nat.le_of_lt hlt)] at h2
  exact h2

theorem dw_len {p : Char → Bool} (l : List Char) : (l.dropWhile p).length ≤ l.length := by
  induction l with
  | nil => exact Nat.le.refl
  | cons x xs ih =>
    rw [List.dropWhile_cons]
    cases hx : p x with
    | true => simp only [if_true]; exact Nat.le_succ_of_le ih
    | false => simp

theorem prfMatch_some_iff {u rem : List Char} :
    prfMatch u = some rem ↔
      ∃ u2, u = prfLit ++ u2 ∧ u2.dropWhile nlFree = '\n' :: rem := by
  unfold prfMatch
  cases hp : hasPre prfLit u with
  | false =>
    simp only [hp, Bool.false_eq_true, if_false]
    constructor
    · intro h; exact absurd h (by simp)
    · rintro ⟨u2, rfl, _⟩
      rw [hasPre_append] at hp
      exact absurd hp (by simp)
  | true =>
    obtain ⟨u2, hu⟩ := (hasPre_iff _ _).mp hp
    subst hu
    rw [if_pos rfl, List.drop_left]
    cases hdw : u2.dropWhile nlFree with
    | nil =>
      constructor
      · intro h; exact absurd h (by simp)
      · rintro ⟨u2', he, hdw'⟩
        have : u2' = u2 := (app_left_cancel he).symm
        subst this
        rw [hdw] at hdw'
        exact absurd hdw' (by simp)
    | cons y rem2 =>
      have hy : y = '\n' := nlFree_false.mp (dw_head hdw)
      subst hy
      constructor
      · intro h
        injection h with h
        subst h
        exact ⟨u2, rfl, hdw⟩
      · rintro ⟨u2', he, hdw'⟩
        have : u2' = u2 := (app_left_cancel he).symm
        subst this
        rw [hdw] at hdw'
        injection hdw' with _ h2
        rw [h2]

theorem prfMatch_hc : ∀ s rem, prfMatch s = some rem → rem.length < s.length := by
  intro s rem h
  obtain ⟨u2, rfl, hdw⟩ := prfMatch_some_iff.mp h
  have h1 : ('\n' :: rem).length ≤ u2.length := by
    rw [← hdw]; exact dw_len u2
  simp only [List.length_cons, List.length_append] at h1 ⊢
  omega

theorem prf_head_split : strL "Settings\tsector\t\\" = prfLit ++ ['\t', '\\'] := by decide

theorem nl_strL : strL "\n" = ['\n'] := by decide

theorem prfRepl_split (name t : List Char) :
    prfRepl name ++ t = prfLit ++ (('\t' :: '\\' :: name) ++ ('\n' :: t)) := by
  show (strL "Settings\tsector\t\\" ++ name ++ strL "\n") ++ t = _
  rw [prf_head_split, nl_strL]
  simp [List.append_assoc]

theorem prfMatch_ha {name : List Char} (hn : '\n' ∉ name) :
    ∀ t, prfMatch (prfRepl name ++ t) = some t := by
  intro t
  rw [prfMatch_some_iff]
  refine ⟨('\t' :: '\\' :: name) ++ ('\n' :: t), prfRepl_split name t, ?_⟩
  rw [dw_all ('\n' :: t) ?hall]
  · rw [List.dropWhile_cons]
    simp [nlFree]
  · intro x hx
    simp only [List.mem_cons] at hx
    rcases hx with rfl | rfl | hx
    · decide
    · decide
    · simp only [nlFree, bne_iff_ne, ne_eq]
      intro hxe
      exact hn (hxe ▸ hx)

theorem nl_mem_of_prfMatch {v rem : List Char} (h : prfMatch v = some rem) : '\n' ∈ v := by
  obtain ⟨u2, rfl, hdw⟩ := prfMatch_some_iff.mp h
  have : '\n' ∈ u2.dropWhile nlFree := by rw [hdw]; exact List.mem_cons_self _ _
  exact List.mem_append_right _ (dw_mem this)

theorem prfLit_noBorder :
    ∀ l, l < 15 → 1 ≤ l → prfLit.take (15 - l) ≠ prfLit.drop l := by decide

theorem prfLit_len : prfLit.length = 15 := by decide

theorem prfMatch_hd (name : List Char) :
    ∀ c a v rem t, prfMatch (c :: (a ++ v)) = none → prfMatch v = some rem →
      prfMatch (c :: (a ++ (prfRepl name ++ t))) = none := by
  intro c a v rem t hold hv
  cases hnew : prfMatch (c :: (a ++ (prfRepl name ++ t))) with
  | none => rfl
  | some rem' =>
    exfalso
    obtain ⟨w, hw, _⟩ := prfMatch_some_iff.mp hnew
    rw [← List.cons_append] at hw
    by_cases hl : prfLit.length ≤ (c :: a).length
    · -- the literal fits inside `c :: a`, so the old string matched too
      obtain ⟨D, hxD, _⟩ := split_of_app_eq hw hl
      have hnl : '\n' ∈ D ++ v := List.mem_append_right _ (nl_mem_of_prfMatch hv)
      obtain ⟨r, hr⟩ := mem_nl_dw hnl
      have hsome : prfMatch ((c :: a) ++ v) = some r :=
        prfMatch_some_iff.mpr ⟨D ++ v, by rw [hxD, List.append_assoc], hr⟩
      rw [List.cons_append] at hsome
      rw [hold] at hsome
      exact absurd hsome (by simp)
    · -- the literal would have to straddle `c :: a` and the replacement:
      -- impossible because the literal has no proper border
      push_neg at hl
      have hA := short_head_of_app_eq hw hl
      have hlen : (c :: a).length = a.length + 1 := by simp
      set l := (c :: a).length with hldef
      have h1 : (prfRepl name ++ t).take (prfLit.length - l) =
          prfLit.take (prfLit.length - l) := by
        rw [prfRepl_split]
        exact take_app_le _ _ (Nat.sub_le _ _)
      have h2 : ((prfLit.drop l) ++ w).take (prfLit.length - l) = prfLit.drop l := by
        rw [take_app_le _ _ (by rw [List.length_drop])]
        exact List.take_of_length_le (by rw [List.length_drop])
      have h3 : prfLit.take (prfLit.length - l) = prfLit.drop l := by
        rw [← h1, hA, h2]
      rw [prfLit_len] at h3 hl
      exact prfLit_noBorder l hl (by omega) h3

/-! ## Instance facts for the session rewrite `SECTORFILE:.*\nSECTORTITLE:.*\n` -/

theorem asrMatch_some_iff {u rem : List Char} :
    asrMatch u = some rem ↔
      ∃ u2 after1 a2, u = sfLit ++ u2 ∧ u2.dropWhile nlFree = '\n' :: after1 ∧
        after1 = stLit ++ a2 ∧ a2.dropWhile nlFree = '\n' :: rem := by
  unfold asrMatch
  cases hp : hasPre sfLit u with
  | false =>
    simp only [hp, Bool.false_eq_true, if_false]
    constructor
    · intro h; exact absurd h (by simp)
    · rintro ⟨u2, after1, a2, rfl, _⟩
      rw [hasPre_append] at hp
      exact absurd hp (by simp)
  | true =>
    obtain ⟨u2, hu⟩ := (hasPre_iff _ _).mp hp
    subst hu
    rw [if_pos rfl, List.drop_left]
    cases hdw : u2.dropWhile nlFree with
    | nil =>
      constructor
      · intro h; exact absurd h (by simp)
      · rintro ⟨u2', after1, a2, he, hdw', _⟩
        have huu : u2' = u2 := (app_left_cancel he).symm
        subst huu
        rw [hdw] at hdw'
        exact absurd hdw' (by simp)
    | cons y after1 =>
      have hy : y = '\n' := nlFree_false.mp (dw_head hdw)
      subst hy
      cases hp2 : hasPre stLit after1 with
      | false =>
        simp only [hp2, Bool.false_eq_true, if_false]
        constructor
        · intro h; exact absurd h (by simp)
        · rintro ⟨u2', a1', a2, he, hdw', ha1, _⟩
          have huu : u2' = u2 := (app_left_cancel he).symm
          subst huu
          rw [hdw] at hdw'
          injection hdw' with _ h2
          subst h2
          rw [ha1, hasPre_append] at hp2
          exact absurd hp2 (by simp)
      | true =>
        obtain ⟨a2, ha⟩ := (hasPre_iff _ _).mp hp2
        subst ha
        simp only []
        rw [if_pos hp2, List.drop_left]
        cases hdw2 : a2.dropWhile nlFree with
        | nil =>
          constructor
          · intro h; exact absurd h (by simp)
          · rintro ⟨u2', a1', a2', he, hdw', ha1, hdw2'⟩
            have huu : u2' = u2 := (app_left_cancel he).symm
            subst huu
            rw [hdw] at hdw'
            injection hdw' with _ h2
            rw [← h2] at ha1
            have haa : a2' = a2 := (app_left_cancel ha1).symm
            subst haa
            rw [hdw2] at hdw2'
            exact absurd hdw2' (by simp)
        | cons z rem2 =>
          have hz : z = '\n' := nlFree_false.mp (dw_head hdw2)
          subst hz
          constructor
          · intro h
            injection h with h
            subst h
            exact ⟨u2, stLit ++ a2, a2, rfl, hdw, rfl, hdw2⟩
          · rintro ⟨u2', a1', a2', he, hdw', ha1, hdw2'⟩
            have huu : u2' = u2 := (app_left_cancel he).symm
            subst huu
            rw [hdw] at hdw'
            injection hdw' with _ h2
            rw [← h2] at ha1
            have haa : a2' = a2 := (app_left_cancel ha1).symm
            subst haa
            rw [hdw2] at hdw2'
            injection hdw2' with _ h3
            rw [h3]

theorem asrMatch_hc : ∀ s rem, asrMatch s = some rem → rem.length < s.length := by
  intro s rem h
  obtain ⟨u2, after1, a2, rfl, hdw, ha1, hdw2⟩ := asrMatch_some_iff.mp h
  have h1 : ('\n' :: after1).length ≤ u2.length := by
    rw [← hdw]; exact dw_len u2
  have h2 : ('\n' :: rem).length ≤ a2.length := by
    rw [← hdw2]; exact dw_len a2
  have h3 : after1.length = stLit.length + a2.length := by
    rw [ha1, List.length_append]
  simp only [List.length_cons, List.length_append] at h1 h2 h3 ⊢
  omega

theorem asr_repl_split : asrRepl = sfLit ++ ('\n' :: (stLit ++ ['\n'])) := by decide

theorem asrMatch_ha : ∀ t, asrMatch (asrRepl ++ t) = some t := by
  intro t
  rw [asrMatch_some_iff]
  refine ⟨'\n' :: (stLit ++ ('\n' :: t)), stLit ++ ('\n' :: t), '\n' :: t, ?_, ?_, rfl, ?_⟩
  · rw [asr_repl_split]
    simp [List.append_assoc]
  · rw [List.dropWhile_cons]
    simp [nlFree]
  · rw [List.dropWhile_cons]
    simp [nlFree]

theorem nl_mem_of_asrMatch {v rem : List Char} (h : asrMatch v = some rem) : '\n' ∈ v := by
  obtain ⟨u2, after1, a2, rfl, hdw, _, _⟩ := asrMatch_some_iff.mp h
  have : '\n' ∈ u2.dropWhile nlFree := by rw [hdw]; exact List.mem_cons_self _ _
  exact List.mem_append_right _ (dw_mem this)

theorem asr_sf_noCross :
    ∀ l, l < 11 → 1 ≤ l → asrRepl.take (11 - l) ≠ sfLit.drop l := by decide

theorem asr_st_noCross :
    ∀ l, l < 12 → asrRepl.take (12 - l) ≠ stLit.drop l := by decide

theorem sfLit_len : sfLit.length = 11 := by decide

theorem stLit_len : stLit.length = 12 := by decide

theorem asrRepl_len : asrRepl.length = 25 := by decide

theorem asrMatch_hd :
    ∀ c a v rem t, asrMatch (c :: (a ++ v)) = none → asrMatch v = some rem →
      asrMatch (c :: (a ++ (asrRepl ++ t))) = none := by
  intro c a v rem t hold hv
  cases hnew : asrMatch (c :: (a ++ (asrRepl ++ t))) with
  | none => rfl
  | some rem' =>
    exfalso
    obtain ⟨w, after1N, a2N, hw, hdwN, haN, _⟩ := asrMatch_some_iff.mp hnew
    rw [← List.cons_append] at hw
    obtain ⟨v2, aft1V, a2V, hveq, hvdw, hva1, hvdw2⟩ := asrMatch_some_iff.mp hv
    by_cases hl : sfLit.length ≤ (c :: a).length
    · -- the first literal fits inside `c :: a`
      obtain ⟨D, hxD, hwD⟩ := split_of_app_eq hw hl
      by_cases hnlD : '\n' ∈ D
      · -- the first line of the would-be new match already ends inside `c :: a`
        obtain ⟨D2, hD2⟩ := mem_nl_dw hnlD
        have hdwN2 : w.dropWhile nlFree = '\n' :: (D2 ++ (asrRepl ++ t)) := by
          rw [hwD]; exact dw_first hD2 _
        rw [hdwN] at hdwN2
        injection hdwN2 with _ hafter
        rw [haN] at hafter
        -- hafter : stLit ++ a2N = D2 ++ (asrRepl ++ t)
        by_cases hD2len : stLit.length ≤ D2.length
        · -- the second literal also fits inside the old text, so the old string matched
          obtain ⟨E, hD2E, _⟩ := split_of_app_eq hafter.symm hD2len
          have hdwO : (D ++ v).dropWhile nlFree = '\n' :: (D2 ++ v) := dw_first hD2 v
          have hnlv : '\n' ∈ v := nl_mem_of_asrMatch hv
          obtain ⟨r, hr⟩ := mem_nl_dw (List.mem_append_right E hnlv)
          have hsome : asrMatch ((c :: a) ++ v) = some r :=
            asrMatch_some_iff.mpr ⟨D ++ v, D2 ++ v, E ++ v,
              by rw [hxD, List.append_assoc],
              hdwO,
              by rw [hD2E, List.append_assoc],
              hr⟩
          rw [List.cons_append, hold] at hsome
          exact absurd hsome (by simp)
        · -- the second literal would straddle old text and replacement: no such border
          push_neg at hD2len
          have hEq : asrRepl ++ t = stLit.drop D2.length ++ a2N :=
            short_head_of_app_eq hafter.symm hD2len
          have h1 : (asrRepl ++ t).take (stLit.length - D2.length) =
              asrRepl.take (stLit.length - D2.length) :=
            take_app_le asrRepl t (by rw [asrRepl_len, stLit_len]; omega)
          have h2 : (stLit.drop D2.length ++ a2N).take (stLit.length - D2.length) =
              (stLit.drop D2.length).take (stLit.length - D2.length) :=
            take_app_le (stLit.drop D2.length) a2N (by simp [List.length_drop])
          have h3 : (stLit.drop D2.length).take (stLit.length - D2.length) =
              stLit.drop D2.length :=
            List.take_of_length_le (by simp [List.length_drop])
          have htk := congrArg (List.take (stLit.length - D2.length)) hEq
          rw [h1, h2, h3] at htk
          rw [stLit_len] at htk hD2len
          exact asr_st_noCross D2.length hD2len htk
      · -- no newline inside `D`: the old string matched outright
        have hallD : ∀ x ∈ D, nlFree x = true := by
          intro x hx
          simp only [nlFree, bne_iff_ne, ne_eq]
          intro he
          exact hnlD (he ▸ hx)
        have hallS : ∀ x ∈ sfLit, nlFree x = true := by decide
        have hdwO : (D ++ v).dropWhile nlFree = '\n' :: aft1V := by
          rw [dw_all v hallD, hveq, dw_all v2 hallS, hvdw]
        have hsome : asrMatch ((c :: a) ++ v) = some rem :=
          asrMatch_some_iff.mpr ⟨D ++ v, aft1V, a2V,
            by rw [hxD, List.append_assoc], hdwO, hva1, hvdw2⟩
        rw [List.cons_append, hold] at hsome
        exact absurd hsome (by simp)
    · -- the first literal would straddle `c :: a` and the replacement: no such border
      push_neg at hl
      have hA := short_head_of_app_eq hw hl
      have h1 : (asrRepl ++ t).take (sfLit.length - (c :: a).length) =
          asrRepl.take (sfLit.length - (c :: a).length) :=
        take_app_le asrRepl t (by rw [asrRepl_len, sfLit_len]; omega)
      have h2 : (sfLit.drop (c :: a).length ++ w).take (sfLit.length - (c :: a).length) =
          (sfLit.drop (c :: a).length).take (sfLit.length - (c :: a).length) :=
        take_app_le (sfLit.drop (c :: a).length) w (by simp [List.length_drop])
      have h3 : (sfLit.drop (c :: a).length).take (sfLit.length - (c :: a).length) =
          sfLit.drop (c :: a).length :=
        List.take_of_length_le (by simp [List.length_drop])
      have htk := congrArg (List.take (sfLit.length - (c :: a).length)) hA
      rw [h1, h2, h3] at htk
      rw [sfLit_len] at htk hl
      exact asr_sf_noCross (c :: a).length hl (by simp) htk

/-! ## Idempotence of the two rewrites -/

theorem change_prf_sectors_idem {name : List Char} (hn : '\n' ∉ name) (s : List Char) :
    change_prf_sectors name (change_prf_sectors name s) = change_prf_sectors name s :=
  repAll_idem prfMatch (prfRepl name) prfMatch_hc (prfMatch_ha hn) (prfMatch_hd name) s

theorem clear_asr_idem (s : List Char) :
    clear_asr (clear_asr s) = clear_asr s :=
  repAll_idem asrMatch asrRepl asrMatch_hc asrMatch_ha asrMatch_hd s

/-! ## The last matching element of a filtered list -/

theorem getLast_filter_decomp {α : Type} (p : α → Bool) :
    ∀ (xs : List α) (u : α), (xs.filter p).getLast? = some u →
      ∃ pre post, xs = pre ++ u :: post ∧ p u = true ∧ ∀ v ∈ post, p v = false := by
  intro xs
  induction xs using List.reverseRecOn with
  | nil => intro u h; simp at h
  | append_singleton ys x ih =>
    intro u h
    rw [List.filter_append] at h
    cases hx : p x with
    | true =>
      have hfx : List.filter p [x] = [x] := by simp [hx]
      rw [hfx, List.getLast?_concat] at h
      injection h with h
      subst h
      exact ⟨ys, [], rfl, hx, fun v hv => absurd hv (by simp)⟩
    | false =>
      have hfx : List.filter p [x] = [] := by simp [hx]
      rw [hfx, List.append_nil] at h
      obtain ⟨pre, post, hxs, hu, hpost⟩ := ih u h
      refine ⟨pre, post ++ [x], ?_, hu, ?_⟩
      · rw [hxs]; simp
      · intro v hv
        rcases List.mem_append.mp hv with hv1 | hv2
        · exact hpost v hv1
        · simp only [List.mem_singleton] at hv2
          subst hv2
          exact hx

theorem foldl_last_filter {α : Type} (p : α → Bool) :
    ∀ (names : List α) (acc : Option α),
      names.foldl (fun rv n => if p n then some n else rv) acc =
        ((names.filter p).getLast? <|> acc) := by
  intro names
  induction names with
  | nil => intro acc; rfl
  | cons c rest ih =>
    intro acc
    rw [List.foldl_cons, ih]
    cases hc : p c with
    | true =>
      rw [if_pos rfl]
      have hf : List.filter p (c :: rest) = c :: List.filter p rest := by
        simp [List.filter_cons, hc]
      rw [hf]
      cases hgl : (List.filter p rest).getLast? with
      | some y =>
        have hne : List.filter p rest ≠ [] := by
          intro h0; rw [h0] at hgl; simp at hgl
        obtain ⟨z, l', hzl⟩ := List.exists_cons_of_ne_nil hne
        rw [hzl] at hgl ⊢
        rw [List.getLast?_cons_cons, hgl]
        simp
      | none =>
        have h0 : List.filter p rest = [] := by
          cases hthis : List.filter p rest with
          | nil => rfl
          | cons z l' =>
            rw [hthis] at hgl
            exfalso
            cases hgl2 : (z :: l').getLast? with
            | some y => rw [hgl2] at hgl; exact absurd hgl (by simp)
            | none => rw [List.getLast?_eq_none_iff] at hgl2; exact absurd hgl2 (by simp)
        rw [h0]
        simp
    | false =>
      rw [if_neg (by simp)]
      have hf : List.filter p (c :: rest) = List.filter p rest := by
        simp [List.filter_cons, hc]
      rw [hf]

/-! ## Filesystem lemmas -/

theorem createDirAll_dirs (fs : FS) (p : FPath) :
    (fs.createDirAll p).dirs = prefixesP p ++ fs.dirs := rfl

theorem createDirAll_files (fs : FS) (p : FPath) :
    (fs.createDirAll p).files = fs.files := rfl

theorem writeFile_files (fs : FS) (p : FPath) (c : List Nat) :
    (fs.writeFile p c).files = (p, c) :: fs.files.filter (fun e => !(e.1 == p)) := by
  simp only [FS.writeFile]
  by_cases hd : fs.dirs.contains p.dropLast
  · rw [if_pos hd]
  · rw [if_neg hd]; rfl

theorem writeFile_dirs (fs : FS) (p : FPath) (c : List Nat) :
    (fs.writeFile p c).dirs = fs.dirs ∨
      (fs.writeFile p c).dirs = prefixesP p.dropLast ++ fs.dirs := by
  simp only [FS.writeFile]
  by_cases hd : fs.dirs.contains p.dropLast
  · left; rw [if_pos hd]
  · right; rw [if_neg hd]; rfl

theorem mem_prefixesP : ∀ (p q : FPath), q ∈ prefixesP p ↔ q <+: p := by
  intro p
  induction p with
  | nil =>
    intro q
    constructor
    · intro h
      simp only [prefixesP, List.mem_singleton] at h
      subst h
      exact ⟨[], rfl⟩
    · intro h
      have hq : q = [] := List.prefix_nil.mp h
      subst hq
      simp [prefixesP]
  | cons x xs ih =>
    intro q
    simp only [prefixesP, List.mem_cons, List.mem_map]
    constructor
    · rintro (rfl | ⟨q', hq', rfl⟩)
      · exact ⟨x :: xs, rfl⟩
      · obtain ⟨t, ht⟩ := (ih q').mp hq'
        exact ⟨t, by rw [List.cons_append, ht]⟩
    · intro h
      cases q with
      | nil => left; rfl
      | cons y q' =>
        obtain ⟨t, ht⟩ := h
        rw [List.cons_append] at ht
        injection ht with h1 h2
        subst h1
        right
        exact ⟨q', (ih q').mpr ⟨t, h2⟩, rfl⟩

theorem self_mem_prefixesP (p : FPath) : p ∈ prefixesP p :=
  (mem_prefixesP p p).mpr ⟨[], List.append_nil p⟩

theorem pre_append_cases {α : Type} {q a b : List α} (h : q <+: a ++ b) :
    q <+: a ∨ a <+: q := by
  obtain ⟨t, ht⟩ := h
  by_cases hl : q.length ≤ a.length
  · left
    have hq : q = a.take q.length := by
      have h2 := congrArg (List.take q.length) ht
      rw [take_app_le q t (Nat.le.refl), List.take_length, take_app_le a b hl] at h2
      exact h2
    rw [hq]
    exact ⟨a.drop q.length, List.take_append_drop _ _⟩
  · right
    push_neg at hl
    have hq : q = a ++ b.take (q.length - a.length) := by
      have h2 := congrArg (List.take q.length) ht
      rw [take_app_le q t (Nat.le.refl), List.take_length,
        take_app_ge a b (Nat.le_of_lt hl)] at h2
      exact h2
    exact ⟨b.take (q.length - a.length), hq.symm⟩

theorem dropLast_pre {α : Type} : ∀ (l : List α), l.dropLast <+: l := by
  intro l
  induction l with
  | nil => exact ⟨[], rfl⟩
  | cons x xs ih =>
    cases xs with
    | nil => exact ⟨[x], rfl⟩
    | cons y t =>
      obtain ⟨u, hu⟩ := ih
      exact ⟨u, by rw [List.dropLast_cons₂, List.cons_append, hu]⟩

theorem safeExt_refl (fs0 : FS) (dest : FPath) : SafeExt fs0 dest fs0 :=
  ⟨fun _ hp => Or.inl hp, fun _ he => Or.inl he⟩

theorem safeExt_createDirAll {fs0 : FS} {dest : FPath} {fs : FS}
    (hdest : ∀ q, q <+: dest → q ∈ fs0.dirs) (h : SafeExt fs0 dest fs)
    (comps : FPath) : SafeExt fs0 dest (fs.createDirAll (dest ++ comps)) := by
  refine ⟨?_, ?_⟩
  · intro p hp
    rw [createDirAll_dirs] at hp
    rcases List.mem_append.mp hp with hp1 | hp2
    · rcases pre_append_cases ((mem_prefixesP _ _).mp hp1) with hq | hq
      · exact Or.inl (hdest p hq)
      · exact Or.inr hq
    · exact h.1 p hp2
  · intro e he
    rw [createDirAll_files] at he
    exact h.2 e he

theorem safeExt_writeFile {fs0 : FS} {dest : FPath} {fs : FS}
    (hdest : ∀ q, q <+: dest → q ∈ fs0.dirs) (h : SafeExt fs0 dest fs)
    (comps : FPath) (content : List Nat) :
    SafeExt fs0 dest (fs.writeFile (dest ++ comps) content) := by
  refine ⟨?_, ?_⟩
  · intro p hp
    rcases writeFile_dirs fs (dest ++ comps) content with hw | hw
    · rw [hw] at hp
      exact h.1 p hp
    · rw [hw] at hp
      rcases List.mem_append.mp hp with hp1 | hp2
      · have hq : p <+: dest ++ comps :=
          ((mem_prefixesP _ _).mp hp1).trans (dropLast_pre (dest ++ comps))
        rcases pre_append_cases hq with hq2 | hq2
        · exact Or.inl (hdest p hq2)
        · exact Or.inr hq2
      · exact h.1 p hp2
  · intro e he
    rw [writeFile_files] at he
    rcases List.mem_cons.mp he with he1 | he2
    · subst he1
      exact Or.inr ⟨comps, rfl⟩
    · exact h.2 e (List.mem_of_mem_filter he2)

/-! ## Lemmas about the single-level copy loop -/

theorem copyStep_dirs_mono {root : FPath} {acc : FS} {e : DirEntry} {q : FPath}
    (h : q ∈ acc.dirs) : q ∈ (copyStep root acc e).dirs := by
  cases e with
  | dirE name =>
    simp only [copyStep, createDirAll_dirs]
    exact List.mem_append_right _ h
  | fileE name content =>
    simp only [copyStep]
    rcases writeFile_dirs acc (root ++ [name]) content with hw | hw
    · rw [hw]; exact h
    · rw [hw]; exact List.mem_append_right _ h

theorem copyFold_dirs_mono (root : FPath) :
    ∀ (listing : List DirEntry) (acc : FS) (q : FPath),
      q ∈ acc.dirs → q ∈ (listing.foldl (copyStep root) acc).dirs := by
  intro listing
  induction listing with
  | nil => exact fun acc q h => h
  | cons e rest ih =>
    intro acc q h
    exact ih (copyStep root acc e) q (copyStep_dirs_mono h)

theorem copyFold_files_pres (root : FPath) :
    ∀ (listing : List DirEntry) (acc : FS) (p : FPath) (c : List Nat),
      (∀ e ∈ listing, root ++ [e.entryName] ≠ p) → (p, c) ∈ acc.files →
        (p, c) ∈ (listing.foldl (copyStep root) acc).files := by
  intro listing
  induction listing with
  | nil => exact fun acc p c _ h => h
  | cons e rest ih =>
    intro acc p c hne h
    apply ih (copyStep root acc e) p c (fun e' he' => hne e' (List.mem_cons_of_mem e he'))
    cases e with
    | dirE name => rw [copyStep, createDirAll_files]; exact h
    | fileE name content =>
      rw [copyStep, writeFile_files]
      apply List.mem_cons_of_mem
      apply List.mem_filter.mpr
      refine ⟨h, ?_⟩
      have hb : (p == root ++ [name]) = false :=
        beq_eq_false_iff_ne.mpr
          (fun hh => hne (DirEntry.fileE name content) (List.mem_cons_self _ _) hh.symm)
      rw [hb]
      rfl

theorem copyFold_file_created (root : FPath) :
    ∀ (listing : List DirEntry) (acc : FS) (name : FName) (c : List Nat),
      (listing.map DirEntry.entryName).Nodup → DirEntry.fileE name c ∈ listing →
        (root ++ [name], c) ∈ (listing.foldl (copyStep root) acc).files := by
  intro listing
  induction listing with
  | nil => intro acc name c _ h; simp at h
  | cons e rest ih =>
    intro acc name c hnd hmem
    rw [List.map_cons, List.nodup_cons] at hnd
    rcases List.mem_cons.mp hmem with he | he
    · subst he
      apply copyFold_files_pres root rest (copyStep root acc (DirEntry.fileE name c))
      · intro e' he' hp
        apply hnd.1
        have hname : e'.entryName = name := by
          have h2 := app_left_cancel hp
          injection h2
        have hmm2 : e'.entryName ∈ rest.map DirEntry.entryName :=
          List.mem_map_of_mem DirEntry.entryName he'
        rw [hname] at hmm2
        exact hmm2
      · rw [copyStep, writeFile_files]
        exact List.mem_cons_self _ _
    · exact ih (copyStep root acc e) name c hnd.2 he

theorem copyFold_dir_created (root : FPath) :
    ∀ (listing : List DirEntry) (acc : FS) (name : FName),
      DirEntry.dirE name ∈ listing →
        root ++ [name] ∈ (listing.foldl (copyStep root) acc).dirs := by
  intro listing
  induction listing with
  | nil => intro acc name h; simp at h
  | cons e rest ih =>
    intro acc name hmem
    rcases List.mem_cons.mp hmem with he | he
    · subst he
      apply copyFold_dirs_mono root rest
      rw [copyStep, createDirAll_dirs]
      exact List.mem_append_left _ (self_mem_prefixesP _)
    · exact ih (copyStep root acc e) name he

theorem copyFold_files_bound (root : FPath) :
    ∀ (listing : List DirEntry) (acc : FS) (p : FPath) (c : List Nat),
      (p, c) ∈ (listing.foldl (copyStep root) acc).files →
        (p, c) ∈ acc.files ∨ ∃ name, p = root ++ [name] := by
  intro listing
  induction listing with
  | nil => exact fun acc p c h => Or.inl h
  | cons e rest ih =>
    intro acc p c h
    rcases ih (copyStep root acc e) p c h with h2 | h2
    · cases e with
      | dirE name =>
        rw [copyStep, createDirAll_files] at h2
        exact Or.inl h2
      | fileE name content =>
        rw [copyStep, writeFile_files] at h2
        rcases List.mem_cons.mp h2 with h3 | h3
        · right
          refine ⟨name, ?_⟩
          injection h3 with h4 _
        · exact Or.inl (List.mem_of_mem_filter h3)
    · exact Or.inr h2

/-! ## Safety of the extraction fold -/

theorem unzip_foldl_safe (fs0 : FS) (dest : FPath)
    (hdest : ∀ q, q <+: dest → q ∈ fs0.dirs) :
    ∀ (entries : List ZipEntry) (fs : FS), SafeExt fs0 dest fs →
      SafeExt fs0 dest (unzip_archive dest entries fs) := by
  intro entries
  induction entries with
  | nil => exact fun fs h => h
  | cons e rest ih =>
    intro fs h
    have hstep : unzip_archive dest (e :: rest) fs = unzip_archive dest rest
        (match enclosed_name e.name with
         | none => fs
         | some comps =>
           if e.name.getLast? = some '/' then fs.createDirAll (dest ++ comps)
           else fs.writeFile (dest ++ comps) e.content) := rfl
    rw [hstep]
    apply ih
    cases he : enclosed_name e.name with
    | none => simp only [he]; exact h
    | some comps =>
      simp only [he]
      by_cases hdir : e.name.getLast? = some '/'
      · rw [if_pos hdir]; exact safeExt_createDirAll hdest h comps
      · rw [if_neg hdir]; exact safeExt_writeFile hdest h comps e.content

/-! ## Substring and suffix bridges -/

theorem containsSub_iff (s pat : List Char) :
    containsSub s pat = true ↔ ∃ a b, s = a ++ (pat ++ b) := by
  induction s with
  | nil =>
    simp only [containsSub]
    constructor
    · intro h
      obtain ⟨t, ht⟩ := (hasPre_iff pat []).mp h
      obtain ⟨hp, htl⟩ := List.append_eq_nil.mp ht
      exact ⟨[], [], by simp [hp]⟩
    · rintro ⟨a, b, hab⟩
      obtain ⟨ha, hrest⟩ := List.append_eq_nil.mp hab.symm
      obtain ⟨hp, hb⟩ := List.append_eq_nil.mp hrest
      rw [hp]
      rfl
  | cons c rest ih =>
    simp only [containsSub, Bool.or_eq_true, hasPre_iff, ih]
    constructor
    · rintro (⟨t, ht⟩ | ⟨a, b, hab⟩)
      · exact ⟨[], t, by rw [List.nil_append, ht]⟩
      · exact ⟨c :: a, b, by rw [hab, List.cons_append]⟩
    · rintro ⟨a, b, hab⟩
      cases a with
      | nil =>
        left
        exact ⟨b, by rw [List.nil_append] at hab; exact hab.symm⟩
      | cons a0 a' =>
        right
        rw [List.cons_append] at hab
        injection hab with h1 h2
        exact ⟨a', b, h2⟩

theorem hasSuf_iff (p s : List Char) : hasSuf p s = true ↔ ∃ a, s = a ++ p := by
  unfold hasSuf
  rw [hasPre_iff]
  constructor
  · rintro ⟨t, ht⟩
    refine ⟨t.reverse, ?_⟩
    have h2 := congrArg List.reverse ht
    rw [List.reverse_append, List.reverse_reverse, List.reverse_reverse] at h2
    exact h2.symm
  · rintro ⟨a, rfl⟩
    exact ⟨a.reverse, by rw [List.reverse_append]⟩

/-! ## Claim theorems -/

/-- Claim C1, counterexample: the merge-copy is not recursive.  For a source
tree whose top level holds a directory `sub` containing the file `a.txt`
(bytes `[1]`), `copy_files` into an empty installation root `es` creates the
directory `es/sub` but copies no file at all — the nested entry `sub/a.txt`
does not exist under the destination, contradicting "for every entry under
the source directory, direct or nested at any depth". -/
theorem c1_copy_not_recursive_counterexample :
    treeHasFileAt (FsTree.dir [(strL "sub", FsTree.dir [(strL "a.txt", FsTree.file [1])])])
      [strL "sub", strL "a.txt"] [1] = true ∧
    [strL "es", strL "sub"] ∈
      (copy_files [strL "es"] (topListing [(strL "sub", FsTree.dir [(strL "a.txt", FsTree.file [1])])])
        ⟨prefixesP [strL "es"], []⟩).dirs ∧
    (copy_files [strL "es"] (topListing [(strL "sub", FsTree.dir [(strL "a.txt", FsTree.file [1])])])
      ⟨prefixesP [strL "es"], []⟩).files = [] ∧
    ([strL "es", strL "sub", strL "a.txt"], [1]) ∉
      (copy_files [strL "es"] (topListing [(strL "sub", FsTree.dir [(strL "a.txt", FsTree.file [1])])])
        ⟨prefixesP [strL "es"], []⟩).files :=
  ⟨by decide, by decide, by decide, by decide⟩

/-- Claim C1, amended: both copy passes are single-level.  For a `read_dir`
listing with distinct names, every direct directory entry gets a directory
created at the destination root (`copy_files`) and under `NavData`
(`copy_navdata`); every direct file entry is copied byte-for-byte to the
corresponding destination path (overwriting, since `writeFile` replaces any
entry at that path); and no file is ever written more than one level below
the destination root — nested source entries are not copied. -/
theorem c1_copy_single_level_amended (es_path : FPath) (listing : List DirEntry) (fs : FS)
    (hnd : (listing.map DirEntry.entryName).Nodup) :
    (∀ name, DirEntry.dirE name ∈ listing →
        es_path ++ [name] ∈ (copy_files es_path listing fs).dirs ∧
        es_path ++ [strL "NavData"] ++ [name] ∈ (copy_navdata es_path listing fs).dirs) ∧
    (∀ name c, DirEntry.fileE name c ∈ listing →
        (es_path ++ [name], c) ∈ (copy_files es_path listing fs).files ∧
        (es_path ++ [strL "NavData"] ++ [name], c) ∈ (copy_navdata es_path listing fs).files) ∧
    (∀ p c, (p, c) ∈ (copy_files es_path listing fs).files →
        (p, c) ∈ fs.files ∨ ∃ name, p = es_path ++ [name]) := by
  refine ⟨?_, ?_, ?_⟩
  · intro name h
    exact ⟨copyFold_dir_created es_path listing fs name h,
      copyFold_dir_created (es_path ++ [strL "NavData"]) listing fs name h⟩
  · intro name c h
    exact ⟨copyFold_file_created es_path listing fs name c hnd h,
      copyFold_file_created (es_path ++ [strL "NavData"]) listing fs name c hnd h⟩
  · intro p c h
    exact copyFold_files_bound es_path listing fs p c h

theorem c1_copy_single_level_amended_witness :
    ([strL "es", strL "f.txt"], [7]) ∈
      (copy_files [strL "es"] [DirEntry.fileE (strL "f.txt") [7]]
        ⟨prefixesP [strL "es"], []⟩).files :=
  ((c1_copy_single_level_amended [strL "es"] [DirEntry.fileE (strL "f.txt") [7]]
    ⟨prefixesP [strL "es"], []⟩ (by decide)).2.1 (strL "f.txt") [7] (by decide)).1

/-- Claim C2, counterexample: on the success path the scratch directory still
exists when the region's run ends — `into_path()` disarmed the `TempDir`
guard and nothing removes the directory afterwards. -/
theorem c2_success_leaves_scratch_counterexample :
    (scratch_at_exit none).tmpExists = true := by decide

/-- Claim C2, amended: the scratch directory is gone exactly on the exit
paths reached before `into_path()` (failure at steps 0-10: link resolution
through `remove_file`); from `copy_files` onwards (steps 11-15) and on
success the directory persists on disk. -/
theorem c2_scratch_lifetime_amended :
    (∀ n, n ≤ 15 → ((scratch_at_exit (some n)).tmpExists = decide (11 ≤ n))) ∧
    (scratch_at_exit none).tmpExists = true :=
  ⟨by decide, by decide⟩

theorem c2_scratch_lifetime_amended_witness :
    (scratch_at_exit (some 5)).tmpExists = decide (11 ≤ 5) :=
  c2_scratch_lifetime_amended.1 5 (by decide)

/-- Claim C3, counterexample: an index page whose collected `href`s contain
no link passing the filter makes `get_sector_link` call `.unwrap()` on
`None` — a panic terminating the process, not a NotFound error result. -/
theorem c3_zero_matches_panics_counterexample :
    get_sector_link_run [strL "PARENT-DIR/"] (strL "EPWW") = LinkResult.panicked := by decide

/-- Claim C3, amended: whenever zero collected links pass the
package-name/zip filter, link resolution panics (via `unwrap` of `None`)
rather than returning an error value. -/
theorem c3_zero_matches_panic_amended (hrefs : List (List Char)) (pn : List Char)
    (h : hrefs.filter (fun x => is_correct_link x pn (strL "zip")) = []) :
    get_sector_link_run hrefs pn = LinkResult.panicked := by
  unfold get_sector_link_run
  rw [h]
  rfl

theorem c3_zero_matches_panic_amended_witness :
    get_sector_link_run [strL "index.html"] (strL "EPWW") = LinkResult.panicked :=
  c3_zero_matches_panic_amended [strL "index.html"] (strL "EPWW") (by decide)

/-- Claim C4, counterexample: an extracted package whose top level holds two
`.sct` files does not fail — `get_sector_file_name` silently keeps the last
one in iteration order and the pipeline proceeds with it. -/
theorem c4_multiple_sct_proceeds_counterexample :
    sector_file_step [strL "a.sct", strL "b.sct"] =
      SectorNameOutcome.proceeds (strL "b.sct") ∧
    (([strL "a.sct", strL "b.sct"]).filter (fun n => hasSuf (strL ".sct") n)).length = 2 :=
  ⟨by decide, by decide⟩

/-- Claim C4, amended: `get_sector_file_name` returns the last `.sct` name of
the listing (several `.sct` files are silently tolerated, the last wins);
only when there is no `.sct` file at all does the pipeline abort, and it does
so with a panic (`unwrap` of `None`), not an error value. -/
theorem c4_sector_file_amended :
    (∀ names : List FName, get_sector_file_name names =
      (names.filter (fun n => hasSuf (strL ".sct") n)).getLast?) ∧
    sector_file_step [strL "readme.txt"] = SectorNameOutcome.panicked := by
  constructor
  · intro names
    unfold get_sector_file_name
    rw [foldl_last_filter (fun n => hasSuf (strL ".sct") n) names none]
    cases (names.filter (fun n => hasSuf (strL ".sct") n)).getLast? <;> rfl
  · decide

/-- Claim C5: extraction never writes outside the scratch directory.  If the
filesystem already holds every leading segment of `dest` as a directory,
then after `unzip_archive` every directory and every file that was not
already present lies below `dest`: `enclosed_name` rejects absolute paths
and paths whose `..` segments would climb above the destination. -/
theorem c5_unzip_archive_safe (dest : FPath) (entries : List ZipEntry) (fs : FS)
    (hdest : ∀ q, q <+: dest → q ∈ fs.dirs) :
    (∀ p ∈ (unzip_archive dest entries fs).dirs, p ∈ fs.dirs ∨ dest <+: p) ∧
    (∀ e ∈ (unzip_archive dest entries fs).files, e ∈ fs.files ∨ dest <+: e.1) :=
  unzip_foldl_safe fs dest hdest entries fs (safeExt_refl fs dest)

theorem c5_unzip_archive_safe_witness :
    ((∀ p ∈ (unzip_archive [strL "tmp"]
        [⟨strL "d/", []⟩, ⟨strL "d/f.txt", [7]⟩, ⟨strL "../evil", [9]⟩]
        ⟨prefixesP [strL "tmp"], []⟩).dirs,
        p ∈ (FS.mk (prefixesP [strL "tmp"]) []).dirs ∨ [strL "tmp"] <+: p) ∧
      (∀ e ∈ (unzip_archive [strL "tmp"]
        [⟨strL "d/", []⟩, ⟨strL "d/f.txt", [7]⟩, ⟨strL "../evil", [9]⟩]
        ⟨prefixesP [strL "tmp"], []⟩).files,
        e ∈ (FS.mk (prefixesP [strL "tmp"]) []).files ∨ [strL "tmp"] <+: e.1)) ∧
    (unzip_archive [strL "tmp"]
        [⟨strL "d/", []⟩, ⟨strL "d/f.txt", [7]⟩, ⟨strL "../evil", [9]⟩]
        ⟨prefixesP [strL "tmp"], []⟩).files =
      [([strL "tmp", strL "d", strL "f.txt"], [7])] ∧
    [strL "tmp", strL "d"] ∈ (unzip_archive [strL "tmp"]
        [⟨strL "d/", []⟩, ⟨strL "d/f.txt", [7]⟩, ⟨strL "../evil", [9]⟩]
        ⟨prefixesP [strL "tmp"], []⟩).dirs :=
  ⟨c5_unzip_archive_safe [strL "tmp"]
      [⟨strL "d/", []⟩, ⟨strL "d/f.txt", [7]⟩, ⟨strL "../evil", [9]⟩]
      ⟨prefixesP [strL "tmp"], []⟩
      (fun q hq => (mem_prefixesP [strL "tmp"] q).mpr hq),
    by decide, by decide⟩

/-- Claim C6: `is_correct_link` retains exactly the hrefs containing the
package name as a substring and ending in the literal `zip` (so `.gzip`
passes and `.ZIP` does not), and a successful link resolution returns the
last retained href in document order — no later href passes the filter. -/
theorem c6_link_filter_and_last (hrefs : List (List Char)) (pn : List Char) :
    (∀ l, is_correct_link l pn (strL "zip") = true ↔
      ((∃ a b, l = a ++ (pn ++ b)) ∧ ∃ a, l = a ++ strL "zip")) ∧
    (∀ u, get_sector_link_run hrefs pn = LinkResult.found u →
      is_correct_link u pn (strL "zip") = true ∧
      ∃ pre post, hrefs = pre ++ u :: post ∧
        ∀ v ∈ post, is_correct_link v pn (strL "zip") = false) ∧
    is_correct_link (strL "EPWW-AIRAC.gzip") (strL "EPWW") (strL "zip") = true ∧
    is_correct_link (strL "EPWW-AIRAC.ZIP") (strL "EPWW") (strL "zip") = false := by
  refine ⟨?_, ?_, by decide, by decide⟩
  · intro l
    unfold is_correct_link
    rw [Bool.and_eq_true, containsSub_iff, hasSuf_iff]
  · intro u hu
    unfold get_sector_link_run at hu
    cases hgl : (hrefs.filter (fun x => is_correct_link x pn (strL "zip"))).getLast? with
    | none =>
      rw [hgl] at hu
      exact absurd hu (by simp)
    | some y =>
      rw [hgl] at hu
      injection hu with hy
      subst hy
      obtain ⟨pre, post, hxs, hpu, hpost⟩ :=
        getLast_filter_decomp (fun x => is_correct_link x pn (strL "zip")) hrefs y hgl
      exact ⟨hpu, pre, post, hxs, hpost⟩

theorem c6_link_filter_and_last_witness :
    is_correct_link (strL "b-EPWW.zip") (strL "EPWW") (strL "zip") = true ∧
    ∃ pre post,
      [strL "a.txt", strL "a-EPWW.zip", strL "b-EPWW.zip", strL "c.html"] =
        pre ++ (strL "b-EPWW.zip") :: post ∧
      ∀ v ∈ post, is_correct_link v (strL "EPWW") (strL "zip") = false :=
  (c6_link_filter_and_last
    [strL "a.txt", strL "a-EPWW.zip", strL "b-EPWW.zip", strL "c.html"]
    (strL "EPWW")).2.1 (strL "b-EPWW.zip") (by decide)

/-- Claim C7, counterexample: the profile pattern is not line-anchored.  A
line whose `Settings<TAB>sector` text starts mid-line (here after `ab`) is
still rewritten: the matched span from the literal to the end of the line is
replaced, leaving `abSettings\tsector\t\new.sct`. -/
theorem c7_midline_replacement_counterexample :
    change_prf_sectors (strL "new.sct") (strL "abSettings\tsector\told.sct\n") =
      strL "abSettings\tsector\t\\new.sct\n" ∧
    change_prf_sectors (strL "new.sct") (strL "abSettings\tsector\told.sct\n") ≠
      strL "abSettings\tsector\told.sct\n" :=
  ⟨by decide, by decide⟩

/-- Claim C7, amended: the rewrite replaces every occurrence of
`Settings\tsector` followed by its line tail and a newline, wherever the
literal starts (not only at line starts).  The specified concrete example
holds, and a file with no occurrence of the pattern is left unchanged. -/
theorem c7_prf_rewrite_amended :
    change_prf_sectors (strL "new.sct") (strL "Settings\tsector\told.sct\n") =
      strL "Settings\tsector\t\\new.sct\n" ∧
    (∀ name s, NoMatchUpto prfMatch s → change_prf_sectors name s = s) ∧
    change_prf_sectors (strL "new.sct") (strL "A\nxxSettings\tsector\told.sct\nB\n") =
      strL "A\nxxSettings\tsector\t\\new.sct\nB\n" := by
  refine ⟨by decide, ?_, by decide⟩
  intro name s h
  exact repAll_noMatch h

theorem c7_prf_rewrite_amended_witness :
    change_prf_sectors (strL "new.sct") (strL "no matches here\n") = strL "no matches here\n" :=
  c7_prf_rewrite_amended.2.1 (strL "new.sct") (strL "no matches here\n") (by decide)

/-- Claim C8: the session rewrite replaces each
`SECTORFILE:<...>\nSECTORTITLE:<...>\n` two-line sequence with the two keys
holding empty values (shown on the specified example and on an input with
two such pairs), and a file in which no position starts such a two-line
sequence is left unchanged. -/
theorem c8_asr_clear :
    clear_asr (strL "aaa\nSECTORFILE:foo.sct\nSECTORTITLE:Foo\nbbb\n") =
      strL "aaa\nSECTORFILE:\nSECTORTITLE:\nbbb\n" ∧
    clear_asr (strL "SECTORFILE:a\nSECTORTITLE:b\nX\nSECTORFILE:c\nSECTORTITLE:d\n") =
      strL "SECTORFILE:\nSECTORTITLE:\nX\nSECTORFILE:\nSECTORTITLE:\n" ∧
    (∀ s, NoMatchUpto asrMatch s → clear_asr s = s) := by
  refine ⟨by decide, by decide, ?_⟩
  intro s h
  exact repAll_noMatch h

theorem c8_asr_clear_witness :
    clear_asr (strL "SECTORFILE:kept alone\nTITLE:x\n") =
      strL "SECTORFILE:kept alone\nTITLE:x\n" :=
  c8_asr_clear.2.2 (strL "SECTORFILE:kept alone\nTITLE:x\n") (by decide)

/-- Claim C9: both rewrites are idempotent.  For every file content, running
the profile rewrite twice (with the same sector file name, which as a file
name contains no newline) or the session rewrite twice yields the same
output as running it once: each replacement string is itself a full match of
its pattern, and no new match can be created around a replacement because
the pattern literals have no proper border. -/
theorem c9_rewrites_idempotent (name : List Char) (hn : '\n' ∉ name) :
    (∀ s, change_prf_sectors name (change_prf_sectors name s) = change_prf_sectors name s) ∧
    (∀ s, clear_asr (clear_asr s) = clear_asr s) :=
  ⟨fun s => change_prf_sectors_idem hn s, fun s => clear_asr_idem s⟩

theorem c9_rewrites_idempotent_witness :
    change_prf_sectors (strL "new.sct")
        (change_prf_sectors (strL "new.sct") (strL "xSettings\tsector\told.sct\nZ\n")) =
      change_prf_sectors (strL "new.sct") (strL "xSettings\tsector\told.sct\nZ\n") :=
  (c9_rewrites_idempotent (strL "new.sct") (by decide)).1 (strL "xSettings\tsector\told.sct\nZ\n")

/-- Claim C10: both patterns require a terminating newline, so a match that
is the final content of a file without a trailing newline is never replaced:
a profile ending in `Settings\tsector\told.sct` (with or without earlier
lines) and a session file ending in `SECTORFILE:foo\nSECTORTITLE:Foo` are
written back unchanged. -/
theorem c10_no_trailing_newline_unchanged :
    change_prf_sectors (strL "new.sct") (strL "Settings\tsector\told.sct") =
      strL "Settings\tsector\told.sct" ∧
    change_prf_sectors (strL "new.sct") (strL "A\nSettings\tsector\told.sct") =
      strL "A\nSettings\tsector\told.sct" ∧
    clear_asr (strL "SECTORFILE:foo\nSECTORTITLE:Foo") =
      strL "SECTORFILE:foo\nSECTORTITLE:Foo" :=
  ⟨by decide, by decide, by decide⟩

end ESSU
